import Mathlib

/-!
Verification development for the CML publish & reconciliation engine
(`src/cml.js` and the utilities module). JavaScript strings are embedded as
`List Char`; the platform drivers, filesystem and network are embedded as
explicit environment records, and the observable driver/filesystem calls of
each operation are collected in effect traces.
-/

set_option autoImplicit false

namespace Cml

/-! ## Generic JavaScript string primitives -/

/-- `String.prototype.replace` with a regex `/c/g` whose pattern is the single
character `c`: every occurrence of `c` is replaced by `rep`. -/
def replaceAllChar (c : Char) (rep : List Char) : List Char → List Char
  | [] => []
  | x :: t => (if x = c then rep else [x]) ++ replaceAllChar c rep t

/-- ECMAScript `GetSubstitution` for a string-pattern `replace`: in the
replacement template, `$$` yields `$`, `$&` the matched substring (the
pattern itself for a string search), `` $` `` (dollar, U+0060) the portion
before the match, `$'` the portion after the match; any other `$`-sequence —
including `$n`, since a string pattern has no capture groups — and a trailing
`$` are literal. -/
def dollarSubst (matched before after : List Char) : List Char → List Char
  | [] => []
  | [c] => [c]
  | c1 :: c2 :: t =>
    if c1 = '$' then
      if c2 = '$' then '$' :: dollarSubst matched before after t
      else if c2 = '&' then matched ++ dollarSubst matched before after t
      else if c2 = Char.ofNat 96 then before ++ dollarSubst matched before after t
      else if c2 = '\'' then after ++ dollarSubst matched before after t
      else '$' :: dollarSubst matched before after (c2 :: t)
    else c1 :: dollarSubst matched before after (c2 :: t)

/-- Worker for `replaceFirst`: `before` accumulates the part of the subject
already scanned, so the `$`-substitution sees the correct context. -/
def replaceFirstAux (pat rep : List Char) : List Char → List Char → List Char
  | before, [] =>
    if pat.isPrefixOf ([] : List Char) then dollarSubst pat before [] rep
    else []
  | before, c :: t =>
    if pat.isPrefixOf (c :: t) then
      dollarSubst pat before ((c :: t).drop pat.length) rep
        ++ (c :: t).drop pat.length
    else c :: replaceFirstAux pat rep (before ++ [c]) t

/-- `String.prototype.replace` with a plain string pattern: only the first
occurrence of `pat` is replaced, by `rep` after `$`-substitution. -/
def replaceFirst (pat rep s : List Char) : List Char :=
  replaceFirstAux pat rep [] s

/-- `String.prototype.trim`: whitespace removed from both ends. -/
def trimChars (l : List Char) : List Char :=
  ((l.dropWhile (fun c => c.isWhitespace)).reverse.dropWhile
    (fun c => c.isWhitespace)).reverse

/-- `String.prototype.includes`: `sub` occurs in `s` as a literal substring. -/
def jsIncludes : List Char → List Char → Bool
  | [], sub => sub.isEmpty
  | c :: t, sub => sub.isPrefixOf (c :: t) || jsIncludes t sub

/-! ## WatermarkCodec (`genWatermark` and the `updatableComment` match,
`src/cml.js` lines 187-214 and 295-299) -/

/-- Parameters of `genWatermark`: `label` (default `''`), `workflow`
(`drv.workflowId`) and `run` (`drv.runId`). -/
structure WmParams where
  label : List Char
  workflow : List Char
  run : List Char

/-- The fixed `WATERMARK_IMAGE` URL. -/
def watermarkImage : List Char := "https://cml.dev/watermark.png".data

/-- The four global escape passes applied to the watermark title, in source
order: underscore, asterisk, opening square bracket, opening angle bracket. -/
def escapeTitle (t : List Char) : List Char :=
  replaceAllChar '<' ['\\', '<']
    (replaceAllChar '[' ['\\', '[']
      (replaceAllChar '*' ['\\', '*']
        (replaceAllChar '_' ['\\', '_'] t)))

/-- `genWatermark`: substitute `{workflow}` and `{run}` in the label (first
occurrence each, in that order), prepend `CML watermark `, trim, escape, and
wrap in an image-markdown literal with the escaped text as title. -/
def genWatermark (p : WmParams) : List Char :=
  let lbl := replaceFirst "{run}".data p.run
    (replaceFirst "{workflow}".data p.workflow p.label)
  let title := trimChars ("CML watermark ".data ++ lbl)
  "![](".data ++ watermarkImage ++ " \"".data ++ escapeTitle title ++ "\")".data

/-- The three platform driver kinds. -/
inductive DrvKind
  | github
  | gitlab
  | bitbucket
deriving DecidableEq, Repr

/-- Lifecycle statuses scanned by `parseRunnerLog`, in loop order. -/
inductive RLStatus
  | ready
  | job_started
  | job_ended
deriving DecidableEq, Repr

/-- The `level` field of a runner log event. -/
inductive RLLevel
  | info
  | error
deriving DecidableEq, Repr

/-- The driver-supplied `runnerLogPatterns()` map, embedded as test/extract
functions over the full log text (each regex is evaluated against `data`).
`job_id`/`pipeline_id` embed `patterns.job.exec(data)[1]` and
`patterns.pipeline.exec(data)[1]`. -/
structure RunnerPatterns where
  ready : List Char → Bool
  job_started : List Char → Bool
  job_ended : List Char → Bool
  job_ended_succeded : List Char → Bool
  job_id : List Char → Option (List Char)
  pipeline_id : List Char → Option (List Char)

/-- Options of `parseRunnerLog`; `data` is `none` when the option is absent. -/
structure RLOpts where
  data : Option (List Char)
  name : Option (List Char)

/-- Environment of `parseRunnerLog`: the resolved driver kind, its patterns,
and the job id produced by the GitHub `runnerByName`/`runnerJob` fallback.
The `date` (wall clock) and `repo` fields of the emitted events are
environment constants and are omitted from the event record. -/
structure RLEnv where
  driver : DrvKind
  pats : RunnerPatterns
  ghRunnerJobId : Option (List Char)

/-- Observable external calls made by `parseRunnerLog`. -/
inductive RLEffect
  | getDriver
  | runnerLogPatterns
  | runnerByName
  | runnerJob
deriving DecidableEq, Repr

/-- One emitted lifecycle event (`log` in the source). `success` is `none`
when the field was never assigned (statuses other than `job_ended`). -/
structure RLEvent where
  status : RLStatus
  job : Option (List Char)
  pipeline : Option (List Char)
  success : Option Bool
  level : RLLevel
deriving DecidableEq, Repr

/-- The `job_started` event: `log.job`/`log.pipeline` from the id patterns,
overridden through `runnerByName`/`runnerJob` when a runner `name` was given
and the driver is GitHub; `log.success` is never assigned, so
`log.level = log.success ? 'info' : 'error'` yields `error`. -/
def rlMkStarted (o : RLOpts) (e : RLEnv) (d : List Char) :
    List RLEffect × RLEvent :=
  if o.name.isSome ∧ e.driver = DrvKind.github then
    ([RLEffect.runnerByName, RLEffect.runnerJob],
      ⟨RLStatus.job_started, e.ghRunnerJobId, e.pats.pipeline_id d, none,
        RLLevel.error⟩)
  else
    ([], ⟨RLStatus.job_started, e.pats.job_id d, e.pats.pipeline_id d, none,
      RLLevel.error⟩)

/-- `parseRunnerLog`: falsy `data` (absent or the empty string) returns `[]`
before the driver is consulted; otherwise each of the three status patterns is
tested in order against the full text and one event per match is emitted. -/
def parseRunnerLog (o : RLOpts) (e : RLEnv) : List RLEffect × List RLEvent :=
  match o.data with
  | none => ([], [])
  | some d =>
    if d = [] then ([], [])
    else
      let l1 : List RLEffect × List RLEvent :=
        if e.pats.ready d then
          ([], [⟨RLStatus.ready, none, none, none, RLLevel.error⟩])
        else ([], [])
      let l2 : List RLEffect × List RLEvent :=
        if e.pats.job_started d then
          ((rlMkStarted o e d).1, [(rlMkStarted o e d).2])
        else ([], [])
      let l3 : List RLEffect × List RLEvent :=
        if e.pats.job_ended d then
          let s := e.pats.job_ended_succeded d
          ([], [⟨RLStatus.job_ended, none, none, some s,
            if s then RLLevel.info else RLLevel.error⟩])
        else ([], [])
      ([RLEffect.getDriver, RLEffect.runnerLogPatterns] ++ l1.1 ++ l2.1 ++ l3.1,
        l1.2 ++ l2.2 ++ l3.2)

/-! ## LiveWatchLoop (`watcher.on` handler, `src/cml.js` lines 267-292) -/

/-- Process-lifetime state of the watch loop handler closure: the reentrancy
`lock` flag, the `first` flag, and a counter of reconciliation cycles started
(calls into `commentCreate` from the handler). -/
structure WatchState where
  lock : Bool
  first : Bool
  cycles : Nat
deriving DecidableEq, Repr

/-- Events observed by the watch loop on the single-threaded event loop:
`change` is a delivered filesystem event (handler runs up to its first
suspension point, atomically testing and setting `lock`); `finish` is the
completion of the in-flight reconciliation cycle (the handler resumes,
clears `lock` and updates `first`). -/
inductive WatchEv
  | change
  | finish
deriving DecidableEq, Repr

/-- One scheduler step of the watch loop. A `change` under `lock` is dropped
entirely (`if (lock) return`); otherwise the lock is taken and a cycle starts.
A `finish` clears the lock and records that the first cycle is over. -/
def watchStep (s : WatchState) (e : WatchEv) : WatchState :=
  match e with
  | WatchEv.change =>
    if s.lock then s else { s with lock := true, cycles := s.cycles + 1 }
  | WatchEv.finish =>
    if s.lock then { s with lock := false, first := false } else s

/-- Run the watch loop over a sequence of scheduler events. -/
def watchRun (s : WatchState) (es : List WatchEv) : WatchState :=
  es.foldl watchStep s

/-! ## AssetPublishPipeline node rewriting (`publishLocalFiles`,
`src/cml.js` lines 227-255) -/

/-- Upload failure classification: `err.code === 'ENOENT'` versus any other
error. -/
inductive UpErr
  | enoent
  | upstream
deriving DecidableEq, Repr

/-- A collected markdown `definition`/`image`/`link` node: its `url` and
optional `title`. -/
structure MdNode where
  url : List Char
  title : Option (List Char)
deriving DecidableEq, Repr

/-- `isWatermark`: the node has a (truthy) title starting with
`CML watermark`. -/
def isWatermarkNode (n : MdNode) : Bool :=
  match n.title with
  | some t => "CML watermark".data.isPrefixOf t
  | none => false

/-- The per-node `visitor`: candidate nodes (truthy `url`, not the watermark)
are uploaded and rewritten; an `ENOENT` failure is swallowed leaving the node
untouched; any other failure is rethrown. -/
def visitNode (upl : List Char → Except UpErr (List Char)) (n : MdNode) :
    Except UpErr MdNode :=
  if !n.url.isEmpty && !isWatermarkNode n then
    match upl n.url with
    | Except.ok u => Except.ok { n with url := u }
    | Except.error UpErr.enoent => Except.ok n
    | Except.error UpErr.upstream => Except.error UpErr.upstream
  else Except.ok n

/-- `publishLocalFiles` over the collected nodes: all visitors run under
`Promise.all`, which settles to the rewritten nodes when none rejects and
rejects the whole publish as soon as any visitor rethrows. -/
def publishLocalFiles (upl : List Char → Except UpErr (List Char)) :
    List MdNode → Except UpErr (List MdNode)
  | [] => Except.ok []
  | n :: ns =>
    match visitNode upl n with
    | Except.error e => Except.error e
    | Except.ok n2 =>
      match publishLocalFiles upl ns with
      | Except.error e => Except.error e
      | Except.ok ns2 => Except.ok (n2 :: ns2)

/-- The intended per-node result: candidates whose upload succeeds are
rewritten, everything else is left untouched. -/
def rewriteNode (upl : List Char → Except UpErr (List Char)) (n : MdNode) :
    MdNode :=
  if !n.url.isEmpty && !isWatermarkNode n then
    match upl n.url with
    | Except.ok u => { n with url := u }
    | Except.error _ => n
  else n

/-! ## Serializer ampersand postprocessing (`src/cml.js` line 264) -/

/-- Split the last `'='` off a character list: `splitLastEq l = some (g, e)`
iff `l = g ++ '=' :: e` with `e` free of `'='`. -/
def splitLastEq : List Char → Option (List Char × List Char)
  | [] => none
  | c :: t =>
    match splitLastEq t with
    | some (g, e) => some (c :: g, e)
    | none => if c = '=' then some ([], t) else none

/-- One terminator-free segment of `String.prototype.replace` with
`/\\&(.+)=/g` (`.` cannot match a line terminator, so a match is confined to
such a segment): scanning left to right, a match starts at a literal `\&`,
its greedy group runs to the last `'='` of the segment (the group must be
nonempty), and the replacement `&$1=` drops the backslash; scanning resumes
after the consumed match, where no further `'='` remains, so the leftover
text is kept verbatim. -/
def unescapeAmpLine : List Char → List Char
  | [] => []
  | [c] => [c]
  | c1 :: c2 :: rest =>
    if c1 = '\\' ∧ c2 = '&' then
      match splitLastEq rest with
      | some (g, e) =>
        if g = [] then c1 :: c2 :: unescapeAmpLine rest
        else '&' :: g ++ '=' :: e
      | none => c1 :: c2 :: unescapeAmpLine rest
    else c1 :: unescapeAmpLine (c2 :: rest)

/-- The characters a JavaScript regex `.` cannot match: the ECMAScript line
terminators `'\n'`, `'\r'`, U+2028 and U+2029. -/
def isRegexNl (c : Char) : Bool :=
  decide (c = '\n' ∨ c = '\r' ∨ c = Char.ofNat 8232 ∨ c = Char.ofNat 8233)

/-- Split a document at every line-terminator character, keeping each
separator: the result is the first terminator-free segment plus the list of
(terminator, following segment) pairs. A replacement match never spans a
terminator, because `.` cannot match one. -/
def splitTerms : List Char → List Char × List (Char × List Char)
  | [] => ([], [])
  | c :: t =>
    if isRegexNl c then ([], (c, (splitTerms t).1) :: (splitTerms t).2)
    else (c :: (splitTerms t).1, (splitTerms t).2)

/-- Process the tail segments of a terminator split, reinserting each
terminator verbatim. -/
def unescapeSegs : List (Char × List Char) → List Char
  | [] => []
  | q :: t => q.1 :: (unescapeAmpLine q.2 ++ unescapeSegs t)

/-- The whole-document postprocessing step
`.replace(/\\&(.+)=/g, '&$1=')` applied to the serialized markdown: each
terminator-free segment is rewritten independently and the terminators are
kept. -/
def postprocessAmp (s : List Char) : List Char :=
  unescapeAmpLine (splitTerms s).1 ++ unescapeSegs (splitTerms s).2

/-- Rejoin lines with `'\n'`. -/
def joinNl : List (List Char) → List Char
  | [] => []
  | [l] => l
  | l :: l2 :: ls => l ++ '\n' :: joinNl (l2 :: ls)

/-! ## AssetPublishPipeline round trip (C7) -/

/-- A markdown document with each reference on its own line: `text` lines are
kept verbatim by the serializer, `ref` lines carry one local reference. -/
inductive MdLine
  | text (s : List Char)
  | ref (url : List Char)
deriving DecidableEq, Repr

/-- The serializer's ampersand escaping inside URL strings: `&` becomes
`\&`. -/
def escAmp (l : List Char) : List Char := replaceAllChar '&' ['\\', '&'] l

/-- Modelled from the spec: the remark serializer (an external library, not
part of the repository sources) reproduces text verbatim and re-serializes a
rewritten reference with its URL, backslash-escaping ampersands inside the
URL; the upload rewriting of `publishLocalFiles` substitutes `upl url` for
the node URL. -/
def serializeLine (upl : List Char → List Char) : MdLine → List Char
  | MdLine.text s => s
  | MdLine.ref u => "![](".data ++ escAmp (upl u) ++ ")".data

/-- Modelled from the spec: serialization of a whole document, one line per
node, joined by newlines. -/
def serializeDoc (upl : List Char → List Char) (doc : List MdLine) :
    List Char :=
  joinNl (doc.map (serializeLine upl))

/-- The publish pipeline output: serialize with rewritten references, then
apply the source's ampersand postprocessing (`src/cml.js` line 264). -/
def publishPipeline (upl : List Char → List Char) (doc : List MdLine) :
    List Char :=
  postprocessAmp (serializeDoc upl doc)

/-- The byte-identical-except-URLs reference output: text verbatim and each
reference rewritten to its uploaded URL with no escaping artifact. -/
def idealLine (upl : List Char → List Char) : MdLine → List Char
  | MdLine.text s => s
  | MdLine.ref u => "![](".data ++ upl u ++ ")".data

/-- Reference output for a whole document. -/
def idealDoc (upl : List Char → List Char) (doc : List MdLine) : List Char :=
  joinNl (doc.map (idealLine upl))

/-- Side conditions on a rewritten URL under which the serializer's escaping
is exactly reversible: no line-terminator character, and either no ampersand
at all or a single ampersand followed by a nonempty query key and `'='`, in a
URL free of backslashes. -/
def refUrlOk (v : List Char) : Prop :=
  (∀ c ∈ v, isRegexNl c = false) ∧
    (('&' ∉ v) ∨
      ∃ p g e, v = p ++ '&' :: g ++ '=' :: e ∧ '\\' ∉ v ∧ '&' ∉ p ∧
        '&' ∉ g ∧ '&' ∉ e ∧ g ≠ [])

/-! ## CommentReconciler (`commentCreate`, `src/cml.js` lines 165-322) -/

/-- One existing comment on the resolved target, in driver listing order. -/
structure CmlComment where
  id : Nat
  body : List Char
deriving DecidableEq, Repr

/-- Observable I/O and driver calls of `commentCreate`. -/
inductive CCEffect
  | readFile
  | publish
  | resolveTarget
  | listComments
  | updateComment (id : Nat)
  | createComment
deriving DecidableEq, Repr

/-- Outcome of `commentCreate`. -/
inductive CCResult
  | errDriver
  | errConfig
  | errRead
  | watching
  | updated (id : Nat)
  | created
deriving DecidableEq, Repr

/-- Options of `commentCreate` relevant to the comment protocol. -/
structure CCOpts where
  report : Option (List Char)
  rmWatermark : Bool
  update : Bool
  watch : Bool
  publish : Bool
  watermarkTitle : List Char

/-- Environment of `commentCreate`: driver resolvability, the driver's
workflow/run ids, the markdown file contents (`none` models a read error),
the publish pipeline as a report transformer, and the listed comments. -/
structure CCEnv where
  driverSet : Bool
  workflowId : List Char
  runId : List Char
  fileContents : Option (List Char)
  publishFn : List Char → List Char
  comments : List CmlComment

/-- `commentCreate`: resolve the driver, fail fast on the incompatible
`rmWatermark`/`update` flags, build the watermark, read the report file when
no (truthy) report was passed, publish if requested, hand over to the watch
loop if requested, resolve the target, and finally update the newest
watermark-matching comment or create a new one. -/
def commentCreate (o : CCOpts) (e : CCEnv) : List CCEffect × CCResult :=
  if !e.driverSet then ([], CCResult.errDriver)
  else if o.rmWatermark && o.update then ([], CCResult.errConfig)
  else
    let watermark :=
      if o.rmWatermark then []
      else genWatermark ⟨o.watermarkTitle, e.workflowId, e.runId⟩
    let tReport : Option (List Char) :=
      match o.report with
      | some r => if r.isEmpty then none else some r
      | none => none
    match tReport with
    | some r => commentCreateAfterRead o e watermark [] r
    | none =>
      match e.fileContents with
      | some c => commentCreateAfterRead o e watermark [CCEffect.readFile] c
      | none =>
        if o.watch then
          commentCreateAfterRead o e watermark [CCEffect.readFile]
            "undefined".data
        else ([CCEffect.readFile], CCResult.errRead)

where
  /-- Continuation of `commentCreate` once `userReport` is known. -/
  commentCreateAfterRead (o : CCOpts) (e : CCEnv) (watermark : List Char)
      (effs0 : List CCEffect) (userReport : List Char) :
      List CCEffect × CCResult :=
    let report0 := userReport ++ "\n\n".data ++ watermark
    let e1 :=
      if o.publish then (effs0 ++ [CCEffect.publish], e.publishFn report0)
      else (effs0, report0)
    if o.watch then (e1.1, CCResult.watching)
    else
      let effs2 := e1.1 ++ [CCEffect.resolveTarget]
      if o.update then
        match (e.comments.reverse).find?
            (fun c => jsIncludes c.body watermark) with
        | some c =>
          (effs2 ++ [CCEffect.listComments, CCEffect.updateComment c.id],
            CCResult.updated c.id)
        | none =>
          (effs2 ++ [CCEffect.listComments, CCEffect.createComment],
            CCResult.created)
      else (effs2 ++ [CCEffect.createComment], CCResult.created)

/-! ## PRReconciler (`prCreate`, `src/cml.js` lines 509-612) -/

/-- An existing PR/MR as returned by `driver.prs()`. -/
structure PRInfo where
  source : List Char
  target : List Char
  url : List Char
deriving DecidableEq, Repr

/-- Mutable world touched by `prCreate`: the remote branches, the open
PRs/MRs, and a count of pushes performed. -/
structure PRWorld where
  branches : List (List Char)
  prs : List PRInfo
  pushes : Nat
deriving DecidableEq, Repr

/-- Per-call inputs of `prCreate`: options plus the environment answers that
are identical across the two calls of the idempotence claim (`git status`
files, `globby` expansion, trigger SHA, current branch). -/
structure PRParams where
  driver : DrvKind
  md : Bool
  branch : Option (List Char)
  globs : List (List Char)
  globbed : List (List Char)
  files : List (List Char)
  sha : List Char
  curBranch : List Char

/-- Modelled from the spec: `driver.prCreate` (an external driver call) opens
a PR/MR and returns its URL, determined by the source and target branch. -/
def mkPrUrl (source target : List Char) : List Char :=
  "https://example.invalid/pr/".data ++ source ++ "...".data ++ target

/-- `renderPr`: wrap the URL as a markdown link when `md` was requested. -/
def renderPr (p : PRParams) (url : List Char) : List Char :=
  if p.md then
    "[CML's ".data ++
      (if p.driver = DrvKind.gitlab then "Merge".data else "Pull".data) ++
      " Request](".data ++ url ++ ")".data
  else url

/-- The computed source branch: explicit, or target plus short-SHA suffix. -/
def prSource (p : PRParams) : List Char :=
  match p.branch with
  | some b => b
  | none => p.curBranch ++ "-cml-pr-".data ++ p.sha.take 8

/-- `prCreate`: no-op when globs were given but nothing changed or matched;
otherwise probe the remote for the source branch; when it exists, reuse the
first PR whose source/target suffix-match the computed names, falling through
to `driver.prCreate` when none matches; when absent, commit and push the
branch and open the PR. -/
def prCreate (w : PRWorld) (p : PRParams) : PRWorld × Option (List Char) :=
  if p.files.isEmpty && !p.globs.isEmpty then (w, none)
  else
    let paths := p.globbed.filter (fun x => p.files.contains x)
    if paths.isEmpty && !p.globs.isEmpty then (w, none)
    else
      let source := prSource p
      let target := p.curBranch
      if source ∈ w.branches then
        match w.prs.find? (fun pr =>
            pr.source.isSuffixOf source && pr.target.isSuffixOf target) with
        | some pr => (w, some (renderPr p pr.url))
        | none =>
          let url := mkPrUrl source target
          ({ w with prs := w.prs ++ [⟨source, target, url⟩] },
            some (renderPr p url))
      else
        let url := mkPrUrl source target
        ({ branches := w.branches ++ [source],
           prs := w.prs ++ [⟨source, target, url⟩],
           pushes := w.pushes + 1 },
          some (renderPr p url))

/-! ## MimeSniffPipeline (`mimeType` in the utilities module, lines 28-48) -/

/-- Errors surfaced by `mimeType`. `typeError` is the JavaScript `TypeError`
raised by `([]).split(';')` when the detection result is falsy; `sniffFailed`
is the dedicated typed error posited by the spec, which the code never
constructs. -/
inductive SniffErr
  | typeError
  | sniffFailed
deriving DecidableEq, Repr

/-- Environment of `mimeType`: the string returned by
`fileMagic.detect(...)`, with `none` for a null/undefined result; an empty
string is likewise falsy. -/
structure MimeEnv where
  detectResult : Option (List Char)

/-- `mimeType`: `(fileMagic.detect(...) || []).split(';')[0]`. A truthy
detection string is split at the first `';'` and its head returned; a falsy
result makes the code call `.split` on an array, raising a `TypeError`. -/
def mimeType (env : MimeEnv) : Except SniffErr (List Char) :=
  match env.detectResult with
  | none => Except.error SniffErr.typeError
  | some s =>
    if s = [] then Except.error SniffErr.typeError
    else Except.ok (s.takeWhile (fun c => c != ';'))

/-! ## Helper lemmas -/

theorem replaceAllChar_id {c : Char} {l : List Char} (rep : List Char)
    (h : ∀ x ∈ l, x ≠ c) : replaceAllChar c rep l = l := by
  induction l with
  | nil => rfl
  | cons a t ih =>
    have ha : a ≠ c := h a (List.mem_cons_self a t)
    have iht := ih (fun x hx => h x (List.mem_cons_of_mem a hx))
    simp [replaceAllChar, ha, iht]

theorem find?_append_none {p : PRInfo → Bool} {l1 : List PRInfo}
    (l2 : List PRInfo) (h : l1.find? p = none) :
    (l1 ++ l2).find? p = l2.find? p := by
  induction l1 with
  | nil => simp
  | cons a t ih =>
    cases hpa : p a with
    | false =>
      have h2 : t.find? p = none := by
        rw [List.find?_cons_of_neg _ (by simp [hpa])] at h
        exact h
      rw [List.cons_append, List.find?_cons_of_neg _ (by simp [hpa])]
      exact ih h2
    | true =>
      rw [List.find?_cons_of_pos _ hpa] at h
      exact absurd h (by simp)

theorem isSuffixOf_self (l : List Char) : l.isSuffixOf l = true :=
  List.isSuffixOf_iff_suffix.mpr (List.suffix_refl l)

/-! ## C2: watermark round trip and discrimination -/

theorem watchRun_locked (s : WatchState) (n : Nat) (h : s.lock = true) :
    watchRun s (List.replicate n WatchEv.change) = s := by
  induction n with
  | zero => rfl
  | succ k ih =>
    rw [List.replicate_succ]
    show watchRun (watchStep s WatchEv.change) (List.replicate k WatchEv.change)
      = s
    have : watchStep s WatchEv.change = s := by
      simp [watchStep, h]
    rw [this, ih]

/-- Claim C3: while a reconciliation cycle is in flight (the lock is held),
every filesystem event in a burst of `n` is dropped without queuing — the
state is completely unchanged, so zero additional cycles start during the
burst; and even after the in-flight cycle finishes, a subsequent burst of `m`
events starts at most one additional cycle, never `m`. -/
theorem c3_watch_lock_drops_events (s : WatchState) (n m : Nat)
    (h : s.lock = true) :
    watchRun s (List.replicate n WatchEv.change) = s ∧
    (watchRun s (List.replicate n WatchEv.change ++ WatchEv.finish ::
      List.replicate m WatchEv.change)).cycles ≤ s.cycles + 1 := by
  refine ⟨watchRun_locked s n h, ?_⟩
  have hsplit : watchRun s (List.replicate n WatchEv.change ++ WatchEv.finish ::
      List.replicate m WatchEv.change)
      = watchRun (watchStep (watchRun s (List.replicate n WatchEv.change))
        WatchEv.finish) (List.replicate m WatchEv.change) := by
    unfold watchRun
    rw [List.foldl_append, List.foldl_cons]
  rw [hsplit, watchRun_locked s n h]
  have hfin : watchStep s WatchEv.finish
      = { s with lock := false, first := false } := by
    simp [watchStep, h]
  rw [hfin]
  cases m with
  | zero =>
    simp [watchRun]
  | succ k =>
    rw [List.replicate_succ]
    show (watchRun (watchStep { s with lock := false, first := false }
      WatchEv.change) (List.replicate k WatchEv.change)).cycles ≤ s.cycles + 1
    have hstep : watchStep { s with lock := false, first := false }
        WatchEv.change
        = { lock := true, first := false, cycles := s.cycles + 1 } := by
      simp [watchStep]
    rw [hstep, watchRun_locked _ k rfl]

/-- Witness for C3 at a concrete locked state and bursts of 5 and 3. -/
theorem c3_watch_lock_witness :
    watchRun ⟨true, true, 1⟩ (List.replicate 5 WatchEv.change)
      = ⟨true, true, 1⟩ ∧
    (watchRun ⟨true, true, 1⟩ (List.replicate 5 WatchEv.change ++
      WatchEv.finish :: List.replicate 3 WatchEv.change)).cycles ≤ 1 + 1 :=
  c3_watch_lock_drops_events ⟨true, true, 1⟩ 5 3 rfl

/-! ## C9: mimeType error propagation -/

/-- Claim C9 (amended): when MIME detection yields a falsy result (a null
return or the empty string), `mimeType` raises — the caller never receives a
silent `application/octet-stream` (or any other) default — but the raised
error is the JavaScript `TypeError` from calling `.split` on an array, not a
dedicated typed "sniff failed" error. -/
theorem c9_mime_error_no_default (env : MimeEnv)
    (h : env.detectResult = none ∨ env.detectResult = some []) :
    mimeType env = Except.error SniffErr.typeError ∧
    ∀ s, mimeType env ≠ Except.ok s := by
  rcases h with h | h <;>
    simp [mimeType, h]

/-- Witness for C9 at the failing detection environment. -/
theorem c9_mime_witness :
    mimeType ⟨none⟩ = Except.error SniffErr.typeError ∧
    ∀ s, mimeType ⟨none⟩ ≠ Except.ok s :=
  c9_mime_error_no_default ⟨none⟩ (Or.inl rfl)

/-- Counterexample for C9 as stated: at a failing detection the raised error
is the untyped `TypeError`, not the typed "sniff failed" error the claim
requires. -/
theorem c9_mime_counterexample :
    mimeType ⟨none⟩ = Except.error SniffErr.typeError ∧
    SniffErr.typeError ≠ SniffErr.sniffFailed := by
  exact ⟨rfl, by decide⟩

/-! ## C10: empty runner log short-circuits -/

/-- Claim C10: when the `data` option is absent or the empty string,
`parseRunnerLog` returns an empty event list with an empty effect trace — the
driver is never resolved, `runnerLogPatterns` is never requested and no
pattern is evaluated. -/
theorem c10_parse_runner_log_empty (o : RLOpts) (e : RLEnv)
    (h : o.data = none ∨ o.data = some []) :
    parseRunnerLog o e = ([], []) := by
  rcases h with h | h <;>
    simp [parseRunnerLog, h]

/-- Witness for C10 with absent data. -/
theorem c10_parse_runner_log_witness :
    parseRunnerLog ⟨none, none⟩
      ⟨DrvKind.github,
        ⟨fun _ => true, fun _ => true, fun _ => true, fun _ => true,
          fun _ => none, fun _ => none⟩, none⟩ = ([], []) :=
  c10_parse_runner_log_empty _ _ (Or.inl rfl)

/-! ## C1: the level of a lone `job_started` event -/

/-- Claim C1 (amended): for runner output in which only the `job_started`
pattern matches (neither `ready` nor `job_ended` match), `parseRunnerLog`
emits exactly one event, its status is `job_started` and its `success` field
is undefined — but its `level` is `error`: the source assigns
`log.level = log.success ? 'info' : 'error'` to every emitted event, so any
event without `success === true`, including a lone `job_started`, reports
`level: 'error'`. -/
theorem c1_job_started_level_error (o : RLOpts) (e : RLEnv) (d : List Char)
    (hd : o.data = some d) (hne : d ≠ [])
    (hr : e.pats.ready d = false) (hs : e.pats.job_started d = true)
    (he : e.pats.job_ended d = false) :
    (parseRunnerLog o e).2.map (fun ev => ev.status) = [RLStatus.job_started] ∧
    (parseRunnerLog o e).2.map (fun ev => ev.success) = [none] ∧
    (parseRunnerLog o e).2.map (fun ev => ev.level) = [RLLevel.error] := by
  have key : ((rlMkStarted o e d).2).status = RLStatus.job_started ∧
      ((rlMkStarted o e d).2).success = none ∧
      ((rlMkStarted o e d).2).level = RLLevel.error := by
    by_cases hc : o.name.isSome ∧ e.driver = DrvKind.github <;>
      simp [rlMkStarted, hc]
  simp [parseRunnerLog, hd, hne, hr, hs, he, key.1, key.2.1, key.2.2]

/-- Witness for C1 at concrete patterns where only `job_started` matches. -/
theorem c1_job_started_witness :
    (parseRunnerLog ⟨some ['x'], none⟩
      ⟨DrvKind.gitlab, ⟨fun _ => false, fun _ => true, fun _ => false,
        fun _ => false, fun _ => none, fun _ => none⟩, none⟩).2.map
          (fun ev => ev.status) = [RLStatus.job_started] ∧
    (parseRunnerLog ⟨some ['x'], none⟩
      ⟨DrvKind.gitlab, ⟨fun _ => false, fun _ => true, fun _ => false,
        fun _ => false, fun _ => none, fun _ => none⟩, none⟩).2.map
          (fun ev => ev.success) = [none] ∧
    (parseRunnerLog ⟨some ['x'], none⟩
      ⟨DrvKind.gitlab, ⟨fun _ => false, fun _ => true, fun _ => false,
        fun _ => false, fun _ => none, fun _ => none⟩, none⟩).2.map
          (fun ev => ev.level) = [RLLevel.error] :=
  c1_job_started_level_error _ _ ['x'] rfl (by decide) rfl rfl rfl

/-- Counterexample for C1 as stated: at runner output matching only the
`job_started` pattern, the single emitted event carries `level: 'error'`,
contradicting the claim that its level is not `error`. -/
theorem c1_job_started_counterexample :
    (parseRunnerLog ⟨some ['x'], none⟩
      ⟨DrvKind.gitlab, ⟨fun _ => false, fun _ => true, fun _ => false,
        fun _ => false, fun _ => none, fun _ => none⟩, none⟩).2.map
          (fun ev => (ev.status, ev.success, ev.level))
      = [(RLStatus.job_started, none, RLLevel.error)] := by
  rfl

/-! ## C5: incompatible `rmWatermark`/`update` flags fail fast -/

/-- Claim C5: with both `rmWatermark` and `update` set, `commentCreate`
fails with the configuration error `watermarks are mandatory for updateable
comments` with an empty effect trace: no file read, no publish, no target
resolution and no driver comment operation is performed. -/
theorem c5_rm_watermark_update_fails_fast (o : CCOpts) (e : CCEnv)
    (hd : e.driverSet = true) (hrm : o.rmWatermark = true)
    (hup : o.update = true) :
    commentCreate o e = ([], CCResult.errConfig) := by
  simp [commentCreate, hd, hrm, hup]

/-- Witness for C5 at concrete options. -/
theorem c5_rm_watermark_update_witness :
    commentCreate ⟨none, true, true, false, false, []⟩
      ⟨true, [], [], none, fun r => r, []⟩ = ([], CCResult.errConfig) :=
  c5_rm_watermark_update_fails_fast _ _ rfl rfl rfl

/-! ## C8: create-versus-update dispatch -/

/-- Claim C8: with `update` requested, `commentCreate` resolves the target,
lists its comments, scans them newest-first (the listing is reversed and the
first body containing the watermark token as a literal substring is taken)
and invokes the driver update operation with that comment's id; when no
comment matches, or when `update` was not requested, it invokes the driver
create operation. -/
theorem c8_update_scans_newest_first (o : CCOpts) (e : CCEnv) (r : List Char)
    (hd : e.driverSet = true) (hrm : o.rmWatermark = false)
    (hw : o.watch = false) (hp : o.publish = false)
    (hr : o.report = some r) (hrne : r ≠ []) :
    (o.update = true →
      commentCreate o e =
        match (e.comments.reverse).find? (fun c => jsIncludes c.body
            (genWatermark ⟨o.watermarkTitle, e.workflowId, e.runId⟩)) with
        | some c => ([CCEffect.resolveTarget, CCEffect.listComments,
            CCEffect.updateComment c.id], CCResult.updated c.id)
        | none => ([CCEffect.resolveTarget, CCEffect.listComments,
            CCEffect.createComment], CCResult.created)) ∧
    (o.update = false →
      commentCreate o e = ([CCEffect.resolveTarget, CCEffect.createComment],
        CCResult.created)) := by
  have hre : r.isEmpty = false := by
    cases r with
    | nil => exact absurd rfl hrne
    | cons a t => rfl
  constructor
  · intro hup
    cases hf : (e.comments.reverse).find? (fun c => jsIncludes c.body
        (genWatermark ⟨o.watermarkTitle, e.workflowId, e.runId⟩)) with
    | none =>
      simp [commentCreate, commentCreate.commentCreateAfterRead, hd, hrm, hw,
        hp, hr, hre, hup, hf]
    | some c =>
      simp [commentCreate, commentCreate.commentCreateAfterRead, hd, hrm, hw,
        hp, hr, hre, hup, hf]
  · intro hup
    simp [commentCreate, commentCreate.commentCreateAfterRead, hd, hrm, hw,
      hp, hr, hre, hup]

/-- Witness for C8: among two listed comments the newer one carries the
watermark token, so the update operation is invoked with its id. -/
theorem c8_update_witness :
    commentCreate ⟨some "report".data, false, true, false, false, []⟩
      ⟨true, "w".data, "9".data, none, fun r => r,
        [⟨1, "hello".data⟩, ⟨2, genWatermark ⟨[], "w".data, "9".data⟩⟩]⟩
      = ([CCEffect.resolveTarget, CCEffect.listComments,
          CCEffect.updateComment 2], CCResult.updated 2) := by
  have h := (c8_update_scans_newest_first
    ⟨some "report".data, false, true, false, false, []⟩
    ⟨true, "w".data, "9".data, none, fun r => r,
      [⟨1, "hello".data⟩, ⟨2, genWatermark ⟨[], "w".data, "9".data⟩⟩]⟩
    "report".data rfl rfl rfl rfl rfl (by decide)).1 rfl
  rw [h]
  decide

/-! ## C6: not-found tolerance in `publishLocalFiles` -/

theorem visitNode_error_upstream {upl : List Char → Except UpErr (List Char)}
    {a : MdNode} {e : UpErr} (h : visitNode upl a = Except.error e) :
    e = UpErr.upstream := by
  unfold visitNode at h
  by_cases hc : (!a.url.isEmpty && !isWatermarkNode a) = true
  · rw [if_pos hc] at h
    cases hu : upl a.url with
    | ok u =>
      rw [hu] at h
      exact absurd h (by simp)
    | error err =>
      rw [hu] at h
      cases err with
      | enoent => exact absurd h (by simp)
      | upstream =>
        simpa using h.symm
  · rw [if_neg hc] at h
    exact absurd h (by simp)

/-- Claim C6: during asset publishing, every node whose upload fails with
not-found (`ENOENT`) is tolerated — the publish succeeds and that node is
left unrewritten — while an upload error other than not-found aborts the
whole publish; and the per-node rewrite leaves a not-found node untouched. -/
theorem c6_publish_enoent_tolerated :
    (∀ (upl : List Char → Except UpErr (List Char)) (ns : List MdNode),
      (∀ n ∈ ns, (!n.url.isEmpty && !isWatermarkNode n) = true →
        upl n.url ≠ Except.error UpErr.upstream) →
      publishLocalFiles upl ns = Except.ok (ns.map (rewriteNode upl))) ∧
    (∀ (upl : List Char → Except UpErr (List Char)) (ns : List MdNode)
      (n : MdNode), n ∈ ns →
      (!n.url.isEmpty && !isWatermarkNode n) = true →
      upl n.url = Except.error UpErr.upstream →
      publishLocalFiles upl ns = Except.error UpErr.upstream) ∧
    (∀ (upl : List Char → Except UpErr (List Char)) (n : MdNode),
      upl n.url = Except.error UpErr.enoent → rewriteNode upl n = n) := by
  refine ⟨?_, ?_, ?_⟩
  · intro upl ns h
    induction ns with
    | nil => rfl
    | cons a t ih =>
      have ha := h a (List.mem_cons_self a t)
      have hvis : visitNode upl a = Except.ok (rewriteNode upl a) := by
        unfold visitNode rewriteNode
        by_cases hc : (!a.url.isEmpty && !isWatermarkNode a) = true
        · rw [if_pos hc, if_pos hc]
          cases hu : upl a.url with
          | ok u => rfl
          | error err =>
            cases err with
            | enoent => rfl
            | upstream => exact absurd hu (ha hc)
        · rw [if_neg hc, if_neg hc]
      have iht := ih (fun n hn => h n (List.mem_cons_of_mem a hn))
      simp [publishLocalFiles, hvis, iht]
  · intro upl ns n hmem hcand hup
    induction ns with
    | nil => exact absurd hmem (by simp)
    | cons a t ih =>
      rcases List.mem_cons.mp hmem with heq | hmem2
      · subst heq
        have hvis : visitNode upl n = Except.error UpErr.upstream := by
          unfold visitNode
          rw [if_pos hcand, hup]
        simp [publishLocalFiles, hvis]
      · cases hvis : visitNode upl a with
        | error e2 =>
          have := visitNode_error_upstream hvis
          subst this
          simp [publishLocalFiles, hvis]
        | ok a2 =>
          simp [publishLocalFiles, hvis, ih hmem2]
  · intro upl n h
    unfold rewriteNode
    by_cases hc : (!n.url.isEmpty && !isWatermarkNode n) = true
    · rw [if_pos hc, h]
    · rw [if_neg hc]

/-- Witness for C6: a not-found upload is tolerated and leaves the node
unrewritten; an upstream upload failure aborts the publish. -/
theorem c6_publish_enoent_witness :
    publishLocalFiles (fun _ => Except.error UpErr.enoent)
      [⟨['m'], none⟩]
      = Except.ok ([(⟨['m'], none⟩ : MdNode)].map
          (rewriteNode (fun _ => Except.error UpErr.enoent))) ∧
    publishLocalFiles (fun _ => Except.error UpErr.upstream)
      [⟨['m'], none⟩] = Except.error UpErr.upstream ∧
    rewriteNode (fun _ => Except.error UpErr.enoent) ⟨['m'], none⟩
      = ⟨['m'], none⟩ :=
  ⟨c6_publish_enoent_tolerated.1 _ [⟨['m'], none⟩]
      (by intro n hn hc h; simp at h),
    c6_publish_enoent_tolerated.2.1 _ [⟨['m'], none⟩] ⟨['m'], none⟩
      (by decide) (by decide) rfl,
    c6_publish_enoent_tolerated.2.2 _ ⟨['m'], none⟩ rfl⟩

/-! ## C4: `prCreate` idempotence under re-run -/

/-- Claim C4: calling `prCreate` twice with identical inputs (same changed
files, same trigger commit, same options), starting from a world where the
computed source branch has not yet been pushed and no existing PR
suffix-matches it, returns the same PR URL both times and performs no second
push: the first call pushes once and opens the PR, the second call's remote
probe finds the branch, reuses the PR just opened and leaves the world
entirely unchanged. -/
theorem c4_pr_create_idempotent (w : PRWorld) (p : PRParams)
    (h1 : (p.files.isEmpty && !p.globs.isEmpty) = false)
    (h2 : ((p.globbed.filter (fun x => p.files.contains x)).isEmpty &&
      !p.globs.isEmpty) = false)
    (h3 : prSource p ∉ w.branches)
    (h4 : w.prs.find? (fun pr => pr.source.isSuffixOf (prSource p) &&
      pr.target.isSuffixOf p.curBranch) = none) :
    (prCreate (prCreate w p).1 p).2 = (prCreate w p).2 ∧
    ((prCreate w p).2 =
      some (renderPr p (mkPrUrl (prSource p) p.curBranch))) ∧
    (prCreate (prCreate w p).1 p).1 = (prCreate w p).1 ∧
    (prCreate w p).1.pushes = w.pushes + 1 := by
  have hc1 : ¬ ((p.files.isEmpty && !p.globs.isEmpty) = true) := by
    simp only [h1]
    decide
  have hc2 : ¬ (((p.globbed.filter (fun x => p.files.contains x)).isEmpty &&
      !p.globs.isEmpty) = true) := by
    simp only [h2]
    decide
  have hfirst : prCreate w p =
      ((⟨w.branches ++ [prSource p],
          w.prs ++ [(⟨prSource p, p.curBranch,
            mkPrUrl (prSource p) p.curBranch⟩ : PRInfo)],
          w.pushes + 1⟩ : PRWorld),
        some (renderPr p (mkPrUrl (prSource p) p.curBranch))) := by
    simp only [prCreate]
    rw [if_neg hc1, if_neg hc2, if_neg h3]
  have hmem2 : prSource p ∈ w.branches ++ [prSource p] := by
    simp
  have hfind2 : (w.prs ++ [(⟨prSource p, p.curBranch,
      mkPrUrl (prSource p) p.curBranch⟩ : PRInfo)]).find? (fun pr =>
        pr.source.isSuffixOf (prSource p) &&
        pr.target.isSuffixOf p.curBranch)
      = some (⟨prSource p, p.curBranch,
          mkPrUrl (prSource p) p.curBranch⟩ : PRInfo) := by
    rw [find?_append_none _ h4]
    rw [List.find?_cons_of_pos _ (by
      simp [isSuffixOf_self])]
  have hsecond : prCreate (prCreate w p).1 p =
      ((prCreate w p).1,
        some (renderPr p (mkPrUrl (prSource p) p.curBranch))) := by
    rw [hfirst]
    simp only [prCreate]
    rw [if_neg hc1, if_neg hc2, if_pos hmem2, hfind2]
  refine ⟨?_, ?_, ?_, ?_⟩
  · rw [hsecond, hfirst]
  · rw [hfirst]
  · rw [hsecond]
  · rw [hfirst]

/-- Witness for C4 at a concrete world and parameter record. -/
theorem c4_pr_create_witness :
    (prCreate (prCreate ⟨[], [], 0⟩
      ⟨DrvKind.github, false, none, [], [], ["f".data], "0123456789".data,
        "main".data⟩).1
      ⟨DrvKind.github, false, none, [], [], ["f".data], "0123456789".data,
        "main".data⟩).2
      = (prCreate ⟨[], [], 0⟩
        ⟨DrvKind.github, false, none, [], [], ["f".data], "0123456789".data,
          "main".data⟩).2 ∧
    (prCreate ⟨[], [], 0⟩
      ⟨DrvKind.github, false, none, [], [], ["f".data], "0123456789".data,
        "main".data⟩).1.pushes = 0 + 1 := by
  have h := c4_pr_create_idempotent ⟨[], [], 0⟩
    ⟨DrvKind.github, false, none, [], [], ["f".data], "0123456789".data,
      "main".data⟩ (by decide) (by decide) (by decide) rfl
  exact ⟨h.1, h.2.2.2⟩

/-! ## C7: the ampersand postprocessing round trip -/

theorem splitLastEq_none : ∀ {l : List Char}, splitLastEq l = none →
    '=' ∉ l := by
  intro l
  induction l with
  | nil => intro _ h; exact absurd h (by simp)
  | cons c t ih =>
    intro h
    simp only [splitLastEq] at h
    cases hst : splitLastEq t with
    | some pair => rw [hst] at h; exact absurd h (by simp)
    | none =>
      rw [hst] at h
      by_cases hc : c = '='
      · rw [if_pos hc] at h; exact absurd h (by simp)
      · rw [if_neg hc] at h
        intro hmem
        rcases List.mem_cons.mp hmem with heq | hmem2
        · exact hc heq.symm
        · exact ih hst hmem2

theorem splitLastEq_some : ∀ {l g e : List Char},
    splitLastEq l = some (g, e) → l = g ++ '=' :: e ∧ '=' ∉ e := by
  intro l
  induction l with
  | nil => intro g e h; exact absurd h (by simp [splitLastEq])
  | cons c t ih =>
    intro g e h
    simp only [splitLastEq] at h
    cases hst : splitLastEq t with
    | some pair =>
      obtain ⟨g2, e2⟩ := pair
      rw [hst] at h
      simp only [Option.some.injEq, Prod.mk.injEq] at h
      obtain ⟨hg, he⟩ := h
      obtain ⟨ht, hm⟩ := ih hst
      subst hg; subst he
      exact ⟨by rw [List.cons_append, ← ht], hm⟩
    | none =>
      rw [hst] at h
      by_cases hc : c = '='
      · rw [if_pos hc] at h
        simp only [Option.some.injEq, Prod.mk.injEq] at h
        obtain ⟨hg, he⟩ := h
        subst hg; subst he
        subst hc
        exact ⟨rfl, splitLastEq_none hst⟩
      · rw [if_neg hc] at h
        exact absurd h (by simp)

theorem splitLastEq_append (g e : List Char) (hg : g ≠ []) :
    ∃ g2 e2, splitLastEq (g ++ '=' :: e) = some (g2, e2) ∧ g2 ≠ [] ∧
      g ++ '=' :: e = g2 ++ '=' :: e2 := by
  cases hs : splitLastEq (g ++ '=' :: e) with
  | none =>
    exact absurd (List.mem_append.mpr (Or.inr (List.mem_cons_self _ _)))
      (splitLastEq_none hs)
  | some pair =>
    obtain ⟨g2, e2⟩ := pair
    obtain ⟨hre, hnm⟩ := splitLastEq_some hs
    refine ⟨g2, e2, rfl, ?_, hre⟩
    intro hg2
    subst hg2
    rw [List.nil_append] at hre
    cases g with
    | nil => exact hg rfl
    | cons c gt =>
      rw [List.cons_append] at hre
      have hinj := List.cons.inj hre
      have : '=' ∈ e2 := by
        rw [← hinj.2]
        exact List.mem_append.mpr (Or.inr (List.mem_cons_self _ _))
      exact hnm this

theorem uA_cons2 (c1 c2 : Char) (rest : List Char) :
    unescapeAmpLine (c1 :: c2 :: rest) =
      if c1 = '\\' ∧ c2 = '&' then
        match splitLastEq rest with
        | some (g, e) =>
          if g = [] then c1 :: c2 :: unescapeAmpLine rest
          else '&' :: g ++ '=' :: e
        | none => c1 :: c2 :: unescapeAmpLine rest
      else c1 :: unescapeAmpLine (c2 :: rest) := rfl

theorem uA_cons_ne {c1 c2 : Char} (rest : List Char)
    (h : ¬ (c1 = '\\' ∧ c2 = '&')) :
    unescapeAmpLine (c1 :: c2 :: rest) = c1 :: unescapeAmpLine (c2 :: rest) := by
  rw [uA_cons2, if_neg h]

theorem uA_cons_found {rest g e : List Char}
    (hs : splitLastEq rest = some (g, e)) (hg : g ≠ []) :
    unescapeAmpLine ('\\' :: '&' :: rest) = '&' :: g ++ '=' :: e := by
  rw [uA_cons2, if_pos ⟨rfl, rfl⟩, hs]
  simp [hg]

theorem infix_cons_of {l₁ t : List Char} (c : Char) (h : l₁ <:+: t) :
    l₁ <:+: (c :: t) := by
  obtain ⟨s, u, hsu⟩ := h
  exact ⟨c :: s, u, by rw [← hsu]; simp⟩

theorem infix_bs_amp_mem {l : List Char} (h : ['\\', '&'] <:+: l) :
    '&' ∈ l := by
  obtain ⟨s, u, hsu⟩ := h
  rw [← hsu]
  simp

theorem uA_no_match : ∀ (l : List Char), ¬ (['\\', '&'] <:+: l) →
    unescapeAmpLine l = l := by
  have main : ∀ (n : Nat) (l : List Char), l.length ≤ n →
      ¬ (['\\', '&'] <:+: l) → unescapeAmpLine l = l := by
    intro n
    induction n with
    | zero =>
      intro l hl _
      have : l = [] := List.eq_nil_of_length_eq_zero (Nat.le_zero.mp hl)
      rw [this]
      rfl
    | succ k ih =>
      intro l hl hinf
      match l with
      | [] => rfl
      | [c] => rfl
      | c1 :: c2 :: rest =>
        have hne : ¬ (c1 = '\\' ∧ c2 = '&') := by
          rintro ⟨h1, h2⟩
          subst h1; subst h2
          exact hinf ⟨[], rest, rfl⟩
        rw [uA_cons_ne rest hne]
        have hlen : (c2 :: rest).length ≤ k := by
          simp only [List.length_cons] at hl ⊢
          omega
        rw [ih (c2 :: rest) hlen (fun hi => hinf (infix_cons_of c1 hi))]
  exact fun l h => main l.length l le_rfl h

theorem uA_match_shape : ∀ (a r g2 e2 : List Char), '\\' ∉ a →
    splitLastEq r = some (g2, e2) → g2 ≠ [] →
    unescapeAmpLine (a ++ '\\' :: '&' :: r) = a ++ '&' :: r := by
  intro a
  induction a with
  | nil =>
    intro r g2 e2 _ hs hg
    rw [List.nil_append, uA_cons_found hs hg, List.nil_append,
      (splitLastEq_some hs).1]
    simp
  | cons c a2 ih =>
    intro r g2 e2 ha hs hg
    have hc : c ≠ '\\' := fun h => ha (h ▸ List.mem_cons_self c a2)
    have ha2 : '\\' ∉ a2 := fun h => ha (List.mem_cons_of_mem c h)
    cases a2 with
    | nil =>
      rw [List.cons_append, List.nil_append,
        uA_cons_ne _ (by rintro ⟨h1, _⟩; exact hc h1)]
      have := ih r g2 e2 (by simp) hs hg
      rw [List.nil_append] at this
      rw [this]
      simp
    | cons d a3 =>
      have hform : (c :: d :: a3) ++ '\\' :: '&' :: r
          = c :: d :: (a3 ++ '\\' :: '&' :: r) := by
        simp
      rw [hform, uA_cons_ne _ (by rintro ⟨h1, _⟩; exact hc h1)]
      have := ih r g2 e2 ha2 hs hg
      rw [List.cons_append] at this
      rw [this]
      simp

theorem replaceAllChar_append (c : Char) (rep l1 l2 : List Char) :
    replaceAllChar c rep (l1 ++ l2)
      = replaceAllChar c rep l1 ++ replaceAllChar c rep l2 := by
  induction l1 with
  | nil => simp [replaceAllChar]
  | cons a t ih => simp [replaceAllChar, ih]

theorem escAmp_append (l1 l2 : List Char) :
    escAmp (l1 ++ l2) = escAmp l1 ++ escAmp l2 :=
  replaceAllChar_append '&' ['\\', '&'] l1 l2

theorem escAmp_no_amp {l : List Char} (h : '&' ∉ l) : escAmp l = l :=
  replaceAllChar_id _ (fun _ hx hxc => h (hxc ▸ hx))

theorem escAmp_amp_cons (t : List Char) :
    escAmp ('&' :: t) = '\\' :: '&' :: escAmp t := by
  simp [escAmp, replaceAllChar]

theorem mem_replaceAllChar {x c : Char} {rep l : List Char}
    (h : x ∈ replaceAllChar c rep l) : x ∈ l ∨ x ∈ rep := by
  induction l with
  | nil => exact absurd h (by simp [replaceAllChar])
  | cons a t ih =>
    simp only [replaceAllChar] at h
    rcases List.mem_append.mp h with h1 | h2
    · by_cases hac : a = c
      · rw [if_pos hac] at h1
        exact Or.inr h1
      · rw [if_neg hac] at h1
        exact Or.inl (by simpa using Or.inl (List.mem_singleton.mp h1))
    · rcases ih h2 with h3 | h3
      · exact Or.inl (List.mem_cons_of_mem a h3)
      · exact Or.inr h3

theorem splitTerms_clean : ∀ {l : List Char},
    (∀ c ∈ l, isRegexNl c = false) → splitTerms l = (l, []) := by
  intro l
  induction l with
  | nil => intro _; rfl
  | cons c t ih =>
    intro h
    have hc : ¬ (isRegexNl c = true) := by
      simp [h c (List.mem_cons_self c t)]
    have ht := ih (fun x hx => h x (List.mem_cons_of_mem c hx))
    simp [splitTerms, hc, ht]

theorem splitTerms_append_sep {l : List Char} (a : Char) (r : List Char)
    (h : ∀ c ∈ l, isRegexNl c = false) (ha : isRegexNl a = true) :
    splitTerms (l ++ a :: r)
      = (l, (a, (splitTerms r).1) :: (splitTerms r).2) := by
  induction l with
  | nil => simp [splitTerms, ha]
  | cons c t ih =>
    have hc : ¬ (isRegexNl c = true) := by
      simp [h c (List.mem_cons_self c t)]
    have ht := ih (fun x hx => h x (List.mem_cons_of_mem c hx))
    simp [splitTerms, hc, ht]

theorem postprocess_joinNl : ∀ (ls : List (List Char)), ls ≠ [] →
    (∀ l ∈ ls, ∀ c ∈ l, isRegexNl c = false) →
    postprocessAmp (joinNl ls) = joinNl (ls.map unescapeAmpLine) := by
  intro ls
  induction ls with
  | nil => intro h _; exact absurd rfl h
  | cons l ls2 ih =>
    intro _ hfree
    cases ls2 with
    | nil =>
      have hj : joinNl [l] = l := rfl
      rw [hj]
      simp [postprocessAmp, splitTerms_clean (hfree l (by simp)),
        unescapeSegs, joinNl]
    | cons l2 ls3 =>
      have hj : joinNl (l :: l2 :: ls3) = l ++ '\n' :: joinNl (l2 :: ls3) :=
        rfl
      have hsp := splitTerms_append_sep '\n' (joinNl (l2 :: ls3))
        (hfree l (by simp)) (by decide)
      have hih := ih (by simp)
        (fun x hx => hfree x (List.mem_cons_of_mem l hx))
      simp only [postprocessAmp] at hih
      rw [hj]
      simp only [postprocessAmp, hsp, unescapeSegs]
      rw [show (l :: l2 :: ls3).map unescapeAmpLine
          = unescapeAmpLine l :: (l2 :: ls3).map unescapeAmpLine from rfl]
      rw [show joinNl (unescapeAmpLine l :: (l2 :: ls3).map unescapeAmpLine)
          = unescapeAmpLine l ++ '\n' ::
              joinNl ((l2 :: ls3).map unescapeAmpLine) by
        cases hm : (l2 :: ls3).map unescapeAmpLine with
        | nil => exact absurd hm (by simp)
        | cons x xs => rfl]
      rw [← hih]

theorem uA_ref_line {v : List Char} (h : refUrlOk v) :
    unescapeAmpLine ("![](".data ++ escAmp v ++ ")".data)
      = "![](".data ++ v ++ ")".data := by
  obtain ⟨hnl, hcase⟩ := h
  rcases hcase with hna | ⟨p, g, e, hveq, hbs, hnp, hng, hne2, hgne⟩
  · rw [escAmp_no_amp hna]
    refine uA_no_match _ ?_
    intro hinf
    have hmem := infix_bs_amp_mem hinf
    rcases List.mem_append.mp hmem with hm | hm
    · rcases List.mem_append.mp hm with hm2 | hm2
      · revert hm2; decide
      · exact hna hm2
    · revert hm; decide
  · subst hveq
    have hrest : '&' ∉ g ++ '=' :: e := by
      intro hm
      rcases List.mem_append.mp hm with hm2 | hm2
      · exact hng hm2
      · rcases List.mem_cons.mp hm2 with he | he
        · exact absurd he (by decide)
        · exact hne2 he
    have hesc : escAmp (p ++ '&' :: (g ++ '=' :: e))
        = p ++ '\\' :: '&' :: (g ++ '=' :: e) := by
      rw [escAmp_append, escAmp_amp_cons, escAmp_no_amp hnp,
        escAmp_no_amp hrest]
    have hpv : '\\' ∉ p := fun hm =>
      hbs (List.mem_append.mpr (Or.inl (List.mem_append.mpr (Or.inl hm))))
    have hassoc : "![](".data ++ (p ++ '\\' :: '&' :: (g ++ '=' :: e))
          ++ ")".data
        = ("![](".data ++ p) ++ '\\' :: '&' ::
            (g ++ '=' :: (e ++ ")".data)) := by
      simp
    have hveq2 : p ++ '&' :: g ++ '=' :: e = p ++ '&' :: (g ++ '=' :: e) := by
      simp
    rw [hveq2, hesc, hassoc]
    obtain ⟨g2, e2, hsplit, hg2ne, _⟩ :=
      splitLastEq_append g (e ++ ")".data) hgne
    have hbs2 : '\\' ∉ ("![](".data ++ p) := by
      intro hm
      rcases List.mem_append.mp hm with hm2 | hm2
      · revert hm2; decide
      · exact hpv hm2
    rw [uA_match_shape _ _ g2 e2 hbs2 hsplit hg2ne]
    simp

theorem uA_serialized_line (upl : List Char → List Char) (line : MdLine)
    (htext : ∀ s, line = MdLine.text s → ¬ (['\\', '&'] <:+: s))
    (href : ∀ u, line = MdLine.ref u → refUrlOk (upl u)) :
    unescapeAmpLine (serializeLine upl line) = idealLine upl line := by
  cases line with
  | text s => exact uA_no_match s (htext s rfl)
  | ref u => exact uA_ref_line (href u rfl)

theorem serializeLine_clean (upl : List Char → List Char) (line : MdLine)
    (htext : ∀ s, line = MdLine.text s → ∀ c ∈ s, isRegexNl c = false)
    (href : ∀ u, line = MdLine.ref u → ∀ c ∈ upl u, isRegexNl c = false) :
    ∀ c ∈ serializeLine upl line, isRegexNl c = false := by
  cases line with
  | text s => exact htext s rfl
  | ref u =>
    have hw1 : ∀ c ∈ "![](".data, isRegexNl c = false := by decide
    have hw2 : ∀ c ∈ ")".data, isRegexNl c = false := by decide
    have hw3 : ∀ c ∈ ['\\', '&'], isRegexNl c = false := by decide
    intro c hm
    simp only [serializeLine] at hm
    rcases List.mem_append.mp hm with hm2 | hm2
    · rcases List.mem_append.mp hm2 with hm3 | hm3
      · exact hw1 c hm3
      · rcases mem_replaceAllChar hm3 with hm4 | hm4
        · exact href u rfl c hm4
        · exact hw3 c hm4
    · exact hw2 c hm2

/-- Claim C7 (amended): when no local reference resolves to a missing file,
the publish pipeline leaves the serialized document byte-identical to the
input except for the rewritten reference URLs, with the serializer's
backslash-escaping of ampersands reversed — provided each rewritten URL
contains at most one ampersand (followed by a nonempty query key and `=`, as
the `?cml=<type>&cache-bypass=<id>` rewrites produce), URLs and text lines
carry no line-terminator character (which the regex `.` cannot match), and
text lines carry no literal `\&`. When a line carries two or more escaped
ampersands, the greedy global regex `/\\&(.+)=/g` consumes everything up to
the line's last `=` in one match and reverses only the first escape (see the
counterexample). -/
theorem c7_publish_round_trip (upl : List Char → List Char)
    (doc : List MdLine)
    (ht : ∀ s, MdLine.text s ∈ doc →
      (∀ c ∈ s, isRegexNl c = false) ∧ ¬ (['\\', '&'] <:+: s))
    (hr : ∀ u, MdLine.ref u ∈ doc → refUrlOk (upl u)) :
    publishPipeline upl doc = idealDoc upl doc := by
  cases doc with
  | nil => rfl
  | cons d ds =>
    simp only [publishPipeline, serializeDoc, idealDoc]
    have hfree : ∀ l ∈ (d :: ds).map (serializeLine upl),
        ∀ c ∈ l, isRegexNl c = false := by
      intro l hl
      obtain ⟨line, hline, hser⟩ := List.mem_map.mp hl
      rw [← hser]
      exact serializeLine_clean upl line
        (fun s hs => (ht s (hs ▸ hline)).1)
        (fun u hu => (hr u (hu ▸ hline)).1)
    rw [postprocess_joinNl _ (by simp) hfree]
    congr 1
    rw [List.map_map]
    refine List.map_congr_left ?_
    intro line hline
    exact uA_serialized_line upl line
      (fun s hs => (ht s (hs ▸ hline)).2)
      (fun u hu => hr u (hu ▸ hline))

/-- Witness for C7: a document of one text line and one reference whose
rewritten URL carries a single `&`-separated query parameter round-trips to
the ideal output. -/
theorem c7_publish_witness :
    publishPipeline (fun _ => "a?c=png&cb=1".data)
      [MdLine.ref "f".data, MdLine.text "hi".data]
      = idealDoc (fun _ => "a?c=png&cb=1".data)
        [MdLine.ref "f".data, MdLine.text "hi".data] := by
  refine c7_publish_round_trip _ _ ?_ ?_
  · intro s hs
    simp at hs
    subst hs
    exact ⟨by decide, by decide⟩
  · intro u hu
    refine ⟨by decide, Or.inr ⟨"a?c=png".data, "cb".data, "1".data,
      by decide, by decide, by decide, by decide, by decide, by decide⟩⟩

/-- Counterexample for C7 as stated: a reference whose rewritten URL carries
two ampersands. The serializer escapes both; the greedy postprocessing regex
reverses only the first, so the output is not byte-identical-except-URLs: the
second query separator survives as a literal `\&`. -/
theorem c7_publish_counterexample :
    publishPipeline (fun _ => "a?x=1&y=2&z=3".data) [MdLine.ref "f".data]
      ≠ idealDoc (fun _ => "a?x=1&y=2&z=3".data) [MdLine.ref "f".data] := by
  decide

end Cml
